import Mathlib

/-!
# Verification of the sensor-fusion staging layer (`dept_map.py`)

Shallow embedding of the acquisition/synchronization pipeline of
`dept_map.py`: the inertial ingestion loop (`imu_reader`), the bounded
deque buffers (`collections.deque(maxlen=...)`), the per-frame depth
normalization (`depth_to_distance`), the frame-loop windowing rule
(`camera_loop`), the field-by-field publication of the latest state,
and the `/imu_buffer` query handler (`imu_buffer_stream`).

Real numbers of the source (Python floats) are modelled as rationals;
raw serial lines are modelled after splitting, each whitespace-separated
field being `some q` when it parses as a number with value `q` and
`none` when `float(...)` would raise.
-/

/-- One timestamped six-axis inertial reading.  In the source a sample is
the tuple `(ts_unix, ax, ay, az, gx, gy, gz)` appended to `imu_buffer`
(`dept_map.py:52`). -/
structure InertialSample where
  timestamp : ℚ
  ax : ℚ
  ay : ℚ
  az : ℚ
  gx : ℚ
  gy : ℚ
  gz : ℚ
deriving DecidableEq, Repr

/-- Constant `MIN_DIST = 1.0` (`dept_map.py:15`). -/
def MIN_DIST : ℚ := 1

/-- Constant `MAX_DIST = 5.0` (`dept_map.py:16`). -/
def MAX_DIST : ℚ := 5

/-- The `1e-8` epsilon in the normalization denominator (`dept_map.py:72`). -/
def EPS : ℚ := 1 / 100000000

/-- Capacity of `imu_buffer = deque(maxlen=2000)` (`dept_map.py:20`). -/
def IMU_CAP : Nat := 2000

/-- Capacity of `synced_imu = deque(maxlen=100)` (`dept_map.py:24`). -/
def SYNC_CAP : Nat := 100

/-- The 1-second synchronization window used in `camera_loop`
(`dept_map.py:109`). -/
def WINDOW : ℚ := 1

/-- Python `collections.deque(maxlen=cap).append(x)`: push `x` on the right; if
the length now exceeds `cap`, discard from the left until it fits (for a
deque already within capacity this discards exactly the leftmost
element). -/
def dequeAppend (cap : Nat) (buf : List α) (x : α) : List α :=
  let b := buf ++ [x]
  if b.length > cap then b.drop (b.length - cap) else b

/-- Minimum of a numpy array's entries, `depth_map.min()`; the source only
applies it to nonempty depth maps (numpy raises on an empty array). -/
def qmin : List ℚ → ℚ
  | [] => 0
  | x :: xs => xs.foldl min x

/-- Maximum of a numpy array's entries, `depth_map.max()`. -/
def qmax : List ℚ → ℚ
  | [] => 0
  | x :: xs => xs.foldl max x

/-- The per-entry value of `depth_to_distance` (`dept_map.py:71-73`):
`depth_norm = (x - depth_map.min()) / (depth_map.max() - depth_map.min() + 1e-8)`
and the result entry is `min_dist + (1.0 - depth_norm) * (max_dist - min_dist)`. -/
def distanceOf (min_dist max_dist : ℚ) (depth_map : List ℚ) (x : ℚ) : ℚ :=
  let depth_norm := (x - qmin depth_map) / (qmax depth_map - qmin depth_map + EPS)
  min_dist + (1 - depth_norm) * (max_dist - min_dist)

/-- Function `depth_to_distance(depth_map, min_dist, max_dist)` (`dept_map.py:71-73`),
the numpy array flattened to the list of its entries; elementwise numpy
arithmetic becomes `List.map`.  In the source the two bounds default to
`MIN_DIST` and `MAX_DIST`, and `camera_loop` calls it with the defaults. -/
def depth_to_distance (min_dist max_dist : ℚ) (depth_map : List ℚ) : List ℚ :=
  depth_map.map (distanceOf min_dist max_dist depth_map)

/-- The windowing rule of `camera_loop` (`dept_map.py:109`):
`synced = [sample for sample in imu_list if 0 < timestamp - sample[0] < 1.0]`. -/
def windowFilter (timestamp : ℚ) (imu_list : List InertialSample) : List InertialSample :=
  imu_list.filter
    (fun sample => decide (0 < timestamp - sample.timestamp ∧ timestamp - sample.timestamp < WINDOW))

/-- A raw serial line after `line.split(' ')`: each field is `some q`
when `float(field) = q` succeeds and `none` when it would raise. -/
abbrev RawRecord := List (Option ℚ)

/-- The parsing step of one `imu_reader` iteration (`dept_map.py:37-39`):
requires exactly seven fields, all numeric (`ts_raw = float(parts[0])`,
`vals = tuple(map(float, parts[1:]))`); any other shape yields no sample
(wrong field count is skipped silently, a non-numeric field raises and is
caught by the `except` clause — either way nothing is produced). -/
def parsedOf : RawRecord → Option (ℚ × ℚ × ℚ × ℚ × ℚ × ℚ × ℚ)
  | [some t, some a1, some a2, some a3, some g1, some g2, some g3] =>
      some (t, a1, a2, a3, g1, g2, g3)
  | _ => none

/-- Mutable state of the ingestion loop: `imu_start_us` (the device-clock
anchor, `None` until the first fully parsed record) and the bounded
`imu_buffer`.  `log` is a ghost history variable recording every sample
ever appended, in order, so that properties of constructed timestamps can
be stated independently of deque eviction. -/
structure ImuState where
  imu_start_us : Option ℚ
  buf : List InertialSample
  log : List InertialSample
deriving DecidableEq, Repr

/-- The initial ingestion state: no anchor, empty buffer. -/
def imuInit : ImuState := ⟨none, [], []⟩

/-- One iteration of the `imu_reader` loop body (`dept_map.py:33-55`) on
an already-split line.  `unix_start_time` is `time.time()` captured once
when `imu_reader` starts, before the loop (`dept_map.py:31`).  A fully
parsed record sets the anchor if unset, converts
`delta_sec = (ts_raw - imu_start_us) / 1_000_000.0`,
`ts_unix = unix_start_time + delta_sec`, and appends to the buffer;
malformed records leave the state unchanged (the `except` clause only
prints). -/
def imu_step (unix_start_time : ℚ) (st : ImuState) (parts : RawRecord) : ImuState :=
  match parsedOf parts with
  | none => st
  | some (ts_raw, a1, a2, a3, g1, g2, g3) =>
      let anchor := st.imu_start_us.getD ts_raw
      let delta_sec := (ts_raw - anchor) / 1000000
      let ts_unix := unix_start_time + delta_sec
      let sample : InertialSample := ⟨ts_unix, a1, a2, a3, g1, g2, g3⟩
      { imu_start_us := some anchor
        buf := dequeAppend IMU_CAP st.buf sample
        log := st.log ++ [sample] }

/-- The `imu_reader` loop (`dept_map.py:28-55`) run over a finite
sequence of incoming lines, starting from the initial state. -/
def imu_reader (unix_start_time : ℚ) (records : List RawRecord) : ImuState :=
  records.foldl (imu_step unix_start_time) imuInit

/-- The successfully parsed records of a line sequence, in order. -/
def parsedList (records : List RawRecord) : List (ℚ × ℚ × ℚ × ℚ × ℚ × ℚ × ℚ) :=
  records.filterMap parsedOf

/-- The device-clock anchor a run establishes: the raw timestamp of the
first fully parsed record (junk `0` when no record ever parses). -/
def anchorOf (records : List RawRecord) : ℚ :=
  (((parsedList records).head?).map (fun p => p.1)).getD 0

/-- The `imu_reader` loop run over lines each tagged with the wall-clock
time at which that line is parsed.  The source ignores these per-line
times: `time.time()` is read once at `dept_map.py:31`, never inside the
loop, so the fold simply discards the tag. -/
def imu_reader_timed (unix_start_time : ℚ) (records : List (ℚ × RawRecord)) : ImuState :=
  records.foldl (fun st r => imu_step unix_start_time st r.2) imuInit

/-- Modelled from the spec: the timestamp rule as §4.1 and claim C3 word
it — `wall_t0` is "the current wall-clock time at the moment that first
record is parsed", and every sample's wall-clock timestamp is
`wall_t0 + (device_raw_ts - device_t0) / 1_000_000`.  Each incoming line
carries the wall-clock time of its parse; the first fully parsed record
anchors both clocks.  This definition follows the spec's words, to be
compared against `imu_reader_timed`. -/
def specTimestamps (records : List (ℚ × RawRecord)) : List ℚ :=
  let parsed := records.filterMap (fun r => (parsedOf r.2).map (fun p => (r.1, p.1)))
  match parsed.head? with
  | none => []
  | some (wall_t0, device_t0) =>
      parsed.map (fun p => wall_t0 + (p.2 - device_t0) / 1000000)

/-- The three publication targets of one `camera_loop` cycle, each tagged
with the index of the acquisition cycle that produced its current value
(`none` before any cycle wrote it): `latest_depth_float`
(`dept_map.py:95`), `latest_rgb` (`dept_map.py:99`), and
`latest_imu_buffer` (`dept_map.py:112`). -/
structure LatestState where
  depthCycle : Option Nat
  rgbCycle : Option Nat
  bundleCycle : Option Nat
deriving DecidableEq, Repr

/-- The publication instructions a `camera_loop` iteration performs, in
source order: `latest_depth_float = dist.copy()` (line 95), then
`latest_rgb = rb.tobytes()` (line 99), then `latest_imu_buffer = synced`
(line 112).  Each is a separate assignment to a separate global. -/
inductive PubStep
  | depth
  | rgb
  | bundle
deriving DecidableEq, Repr

/-- Effect of one publication assignment of cycle `n` on the shared
globals. -/
def applyPub (n : Nat) (st : LatestState) : PubStep → LatestState
  | .depth => { st with depthCycle := some n }
  | .rgb => { st with rgbCycle := some n }
  | .bundle => { st with bundleCycle := some n }

/-- The publication assignments of one cycle, in the order the source
executes them. -/
def cyclePubs : List PubStep := [.depth, .rgb, .bundle]

/-- The shared globals as a reader observes them after cycle `n` has
executed its first `k` publication assignments (the reader runs
concurrently and may be scheduled between any two of them; none of the
three assignments is guarded by a lock or combined into one swap). -/
def observeDuring (n k : Nat) (st : LatestState) : LatestState :=
  (cyclePubs.take k).foldl (applyPub n) st

/-- A `LatestState` is coherent when every published field carries the
same acquisition-cycle index — what the atomic-swap discipline would
guarantee to every reader. -/
def coherent (st : LatestState) : Prop :=
  st.depthCycle = st.rgbCycle ∧ st.rgbCycle = st.bundleCycle

instance : DecidablePred coherent := fun st => by
  unfold coherent; infer_instance

/-- The `/imu_buffer` response (`dept_map.py:145-163`): the structured
record built by `imu_buffer_stream`, field names as in the source JSON
(`"timestamp"` and `"imu"`). -/
structure BundleJson where
  timestamp : Option ℚ
  imu : List InertialSample
deriving DecidableEq, Repr

/-- Handler `imu_buffer_stream` (`dept_map.py:146-163`): if `synced_imu` is
nonempty, take its last entry `(current_ts, imu_data)` (`synced_imu[-1]`)
and return `{"timestamp": current_ts, "imu": imu_data}`; otherwise return
`{"timestamp": None, "imu": []}`. -/
def imu_buffer_stream (synced_imu : List (ℚ × List InertialSample)) : BundleJson :=
  match synced_imu.getLast? with
  | some (current_ts, imu_data) => ⟨some current_ts, imu_data⟩
  | none => ⟨none, []⟩

/-- Sample with a given timestamp and zero motion channels, for concrete
test vectors. -/
def mkS (t : ℚ) : InertialSample := ⟨t, 0, 0, 0, 0, 0, 0⟩

/-! ## Helper lemmas -/

lemma distanceOf_eq (min_dist max_dist : ℚ) (depth_map : List ℚ) (x : ℚ) :
    distanceOf min_dist max_dist depth_map x
      = min_dist + (1 - (x - qmin depth_map) / (qmax depth_map - qmin depth_map + EPS))
          * (max_dist - min_dist) := rfl

lemma dequeAppend_of_lt {α : Type} {cap : ℕ} {buf : List α} (x : α) (h : buf.length < cap) :
    dequeAppend cap buf x = buf ++ [x] := by
  unfold dequeAppend
  rw [if_neg]
  simp only [List.length_append, List.length_cons, List.length_nil]
  omega

lemma dequeAppend_of_full {α : Type} {cap : ℕ} {buf : List α} (x : α) (hc : 0 < cap)
    (h : buf.length = cap) : dequeAppend cap buf x = buf.tail ++ [x] := by
  unfold dequeAppend
  rw [if_pos]
  · have h1 : (buf ++ [x]).length - cap = 1 := by
      simp only [List.length_append, List.length_cons, List.length_nil]
      omega
    rw [h1, List.drop_append_of_le_length (by omega), List.drop_one]
  · simp only [List.length_append, List.length_cons, List.length_nil]
    omega

lemma dequeAppend_length_le {α : Type} {cap : ℕ} {buf : List α} (x : α) (h : buf.length ≤ cap) :
    (dequeAppend cap buf x).length ≤ cap := by
  simp only [dequeAppend]
  split
  · simp only [List.length_drop]
    omega
  · next hgt => omega

lemma foldl_dequeAppend_length_le {α : Type} {cap : ℕ} (xs : List α) (buf : List α)
    (h : buf.length ≤ cap) : (xs.foldl (dequeAppend cap) buf).length ≤ cap := by
  induction xs generalizing buf with
  | nil => simpa using h
  | cons y ys ih => exact ih _ (dequeAppend_length_le y h)

lemma foldl_min_le (xs : List ℚ) (a : ℚ) : xs.foldl min a ≤ a := by
  induction xs generalizing a with
  | nil => exact le_refl a
  | cons y ys ih => exact le_trans (ih (min a y)) (min_le_left a y)

lemma foldl_min_le_mem (xs : List ℚ) (a b : ℚ) (hb : b ∈ xs) : xs.foldl min a ≤ b := by
  induction xs generalizing a with
  | nil => cases hb
  | cons y ys ih =>
    rcases List.mem_cons.mp hb with rfl | h
    · exact le_trans (foldl_min_le ys (min a b)) (min_le_right a b)
    · exact ih (min a y) h

lemma foldl_min_eq_or_mem (xs : List ℚ) (a : ℚ) :
    xs.foldl min a = a ∨ xs.foldl min a ∈ xs := by
  induction xs generalizing a with
  | nil => exact Or.inl rfl
  | cons y ys ih =>
    rcases ih (min a y) with h | h
    · rcases min_choice a y with h2 | h2
      · exact Or.inl (by rw [List.foldl_cons, h, h2])
      · exact Or.inr (by rw [List.foldl_cons, h, h2]; exact List.mem_cons_self y ys)
    · exact Or.inr (List.mem_cons_of_mem y h)

lemma le_foldl_max (xs : List ℚ) (a : ℚ) : a ≤ xs.foldl max a := by
  induction xs generalizing a with
  | nil => exact le_refl a
  | cons y ys ih => exact le_trans (le_max_left a y) (ih (max a y))

lemma mem_le_foldl_max (xs : List ℚ) (a b : ℚ) (hb : b ∈ xs) : b ≤ xs.foldl max a := by
  induction xs generalizing a with
  | nil => cases hb
  | cons y ys ih =>
    rcases List.mem_cons.mp hb with rfl | h
    · exact le_trans (le_max_right a b) (le_foldl_max ys (max a b))
    · exact ih (max a y) h

lemma foldl_max_eq_or_mem (xs : List ℚ) (a : ℚ) :
    xs.foldl max a = a ∨ xs.foldl max a ∈ xs := by
  induction xs generalizing a with
  | nil => exact Or.inl rfl
  | cons y ys ih =>
    rcases ih (max a y) with h | h
    · rcases max_choice a y with h2 | h2
      · exact Or.inl (by rw [List.foldl_cons, h, h2])
      · exact Or.inr (by rw [List.foldl_cons, h, h2]; exact List.mem_cons_self y ys)
    · exact Or.inr (List.mem_cons_of_mem y h)

lemma qmin_le_of_mem {l : List ℚ} {a : ℚ} (h : a ∈ l) : qmin l ≤ a := by
  match l with
  | [] => cases h
  | x :: xs =>
    rcases List.mem_cons.mp h with rfl | hm
    · exact foldl_min_le xs a
    · exact foldl_min_le_mem xs x a hm

lemma le_qmax_of_mem {l : List ℚ} {a : ℚ} (h : a ∈ l) : a ≤ qmax l := by
  match l with
  | [] => cases h
  | x :: xs =>
    rcases List.mem_cons.mp h with rfl | hm
    · exact le_foldl_max xs a
    · exact mem_le_foldl_max xs x a hm

lemma qmin_mem {l : List ℚ} (h : l ≠ []) : qmin l ∈ l := by
  match l with
  | [] => exact absurd rfl h
  | x :: xs =>
    show xs.foldl min x ∈ x :: xs
    rcases foldl_min_eq_or_mem xs x with h2 | h2
    · rw [h2]; exact List.mem_cons_self x xs
    · exact List.mem_cons_of_mem x h2

lemma qmax_mem {l : List ℚ} (h : l ≠ []) : qmax l ∈ l := by
  match l with
  | [] => exact absurd rfl h
  | x :: xs =>
    show xs.foldl max x ∈ x :: xs
    rcases foldl_max_eq_or_mem xs x with h2 | h2
    · rw [h2]; exact List.mem_cons_self x xs
    · exact List.mem_cons_of_mem x h2

lemma EPS_pos : (0 : ℚ) < EPS := by norm_num [EPS]

lemma denom_pos {l : List ℚ} {x : ℚ} (hx : x ∈ l) :
    0 < qmax l - qmin l + EPS := by
  have h1 : qmin l ≤ x := qmin_le_of_mem hx
  have h2 : x ≤ qmax l := le_qmax_of_mem hx
  have := EPS_pos
  linarith

lemma distanceOf_lower {l : List ℚ} {x : ℚ} (hx : x ∈ l) :
    MIN_DIST < distanceOf MIN_DIST MAX_DIST l x := by
  have h1 : qmin l ≤ x := qmin_le_of_mem hx
  have h2 : x ≤ qmax l := le_qmax_of_mem hx
  have hD : 0 < qmax l - qmin l + EPS := denom_pos hx
  have hn1 : (x - qmin l) / (qmax l - qmin l + EPS) < 1 :=
    (div_lt_one hD).mpr (by have := EPS_pos; linarith)
  rw [distanceOf_eq]
  simp only [MIN_DIST, MAX_DIST]
  nlinarith [hn1]

lemma distanceOf_upper {l : List ℚ} {x : ℚ} (hx : x ∈ l) :
    distanceOf MIN_DIST MAX_DIST l x ≤ MAX_DIST := by
  have h1 : qmin l ≤ x := qmin_le_of_mem hx
  have hD : 0 < qmax l - qmin l + EPS := denom_pos hx
  have hn0 : 0 ≤ (x - qmin l) / (qmax l - qmin l + EPS) :=
    div_nonneg (by linarith) (le_of_lt hD)
  rw [distanceOf_eq]
  simp only [MIN_DIST, MAX_DIST]
  nlinarith [hn0]

lemma distanceOf_qmin_eq (l : List ℚ) :
    distanceOf MIN_DIST MAX_DIST l (qmin l) = MAX_DIST := by
  rw [distanceOf_eq]
  simp only [MIN_DIST, MAX_DIST, sub_self, zero_div]
  ring

lemma distanceOf_strict_anti {l : List ℚ} {x y : ℚ} (hx : x ∈ l) (_hy : y ∈ l) (hxy : x < y) :
    distanceOf MIN_DIST MAX_DIST l y < distanceOf MIN_DIST MAX_DIST l x := by
  have hD : 0 < qmax l - qmin l + EPS := denom_pos hx
  have hlt : (x - qmin l) / (qmax l - qmin l + EPS)
      < (y - qmin l) / (qmax l - qmin l + EPS) := by
    apply div_lt_div_of_pos_right ?_ hD
    linarith
  rw [distanceOf_eq, distanceOf_eq]
  simp only [MIN_DIST, MAX_DIST]
  nlinarith [hlt]

lemma imu_step_of_unparsed {u : ℚ} {st : ImuState} {m : RawRecord}
    (hm : parsedOf m = none) : imu_step u st m = st := by
  simp [imu_step, hm]

lemma imu_step_buf_length_le {u : ℚ} {st : ImuState} (r : RawRecord)
    (h : st.buf.length ≤ IMU_CAP) : (imu_step u st r).buf.length ≤ IMU_CAP := by
  rcases hp : parsedOf r with _ | p
  · rw [imu_step_of_unparsed hp]; exact h
  · obtain ⟨t, a1, a2, a3, g1, g2, g3⟩ := p
    simp only [imu_step, hp]
    exact dequeAppend_length_le _ h

/-- Sample built by one fully parsed record, given the loop-start wall
time and the device-clock anchor in force. -/
def sampleOf (unix_start_time device_t0 : ℚ) (p : ℚ × ℚ × ℚ × ℚ × ℚ × ℚ × ℚ) :
    InertialSample :=
  ⟨unix_start_time + (p.1 - device_t0) / 1000000,
    p.2.1, p.2.2.1, p.2.2.2.1, p.2.2.2.2.1, p.2.2.2.2.2.1, p.2.2.2.2.2.2⟩

lemma imu_log_anchored (u t0 : ℚ) (rs : List RawRecord) (st : ImuState)
    (hst : st.imu_start_us = some t0) :
    (rs.foldl (imu_step u) st).log = st.log ++ (parsedList rs).map (sampleOf u t0) := by
  induction rs generalizing st with
  | nil => simp [parsedList]
  | cons r rs ih =>
    rcases hp : parsedOf r with _ | p
    · rw [List.foldl_cons, imu_step_of_unparsed hp, ih st hst]
      simp only [parsedList, List.filterMap_cons_none hp]
    · obtain ⟨t, a1, a2, a3, g1, g2, g3⟩ := p
      rw [List.foldl_cons]
      have hnew : (imu_step u st r).imu_start_us = some t0 := by
        simp [imu_step, hp, hst]
      rw [ih _ hnew]
      simp only [imu_step, hp, hst, Option.getD_some]
      simp only [parsedList, List.filterMap_cons_some hp]
      simp [sampleOf, parsedList]

lemma imu_reader_log_eq (u : ℚ) (records : List RawRecord) :
    (imu_reader u records).log
      = (parsedList records).map (sampleOf u (anchorOf records)) := by
  induction records with
  | nil => simp [imu_reader, imuInit, parsedList]
  | cons r rs ih =>
    rcases hp : parsedOf r with _ | p
    · rw [imu_reader, List.foldl_cons, imu_step_of_unparsed hp]
      rw [show rs.foldl (imu_step u) imuInit = imu_reader u rs from rfl, ih]
      simp only [parsedList, anchorOf, List.filterMap_cons_none hp]
    · obtain ⟨t, a1, a2, a3, g1, g2, g3⟩ := p
      rw [imu_reader, List.foldl_cons]
      have hnew : (imu_step u imuInit r).imu_start_us = some t := by
        simp [imu_step, hp, imuInit]
      rw [imu_log_anchored u t rs _ hnew]
      have hanchor : anchorOf (r :: rs) = t := by
        simp [anchorOf, parsedList, List.filterMap_cons_some hp]
      rw [hanchor]
      simp only [parsedList, List.filterMap_cons_some hp]
      simp only [imu_step, hp, imuInit, Option.getD_none, List.map_cons]
      simp [sampleOf, parsedList]

/-! ## Claim theorems -/

/-- C1: the synchronized bundle built by `camera_loop` for frame timestamp
`T` keeps exactly those snapshot samples `s` with
`0 < T - s.timestamp < 1.0` — strictly before the frame and strictly
within the 1-second window — and on the reference snapshot with sample
timestamps `{98.9, 99.2, 99.9, 100.0, 100.1}` and `T = 100.0` the bundle's
samples are exactly `{99.2, 99.9}`, in order. -/
theorem windowing_correct :
    (∀ (T : ℚ) (imu_list : List InertialSample) (s : InertialSample),
      s ∈ windowFilter T imu_list ↔
        s ∈ imu_list ∧ 0 < T - s.timestamp ∧ T - s.timestamp < 1) ∧
    windowFilter 100 [mkS 98.9, mkS 99.2, mkS 99.9, mkS 100, mkS 100.1]
      = [mkS 99.2, mkS 99.9] := by
  constructor
  · intro T l s
    simp [windowFilter, List.mem_filter, WINDOW, decide_eq_true_eq]
  · norm_num [windowFilter, WINDOW, mkS, List.filter]

/-- C2 (violated by the code): `camera_loop` publishes the latest state in
three separate global assignments — `latest_depth_float` (`dept_map.py:95`),
`latest_rgb` (`dept_map.py:99`), `latest_imu_buffer` (`dept_map.py:112`) —
not as one atomic swap.  Starting from a coherent state where all three
fields come from cycle 0, a reader scheduled after the first assignment of
cycle 1 but before the second observes the cycle-1 distance map paired
with the cycle-0 frame and bundle: a mixture of acquisition cycles,
refuting the atomic-publish property. -/
theorem publish_not_atomic :
    coherent ⟨some 0, some 0, some 0⟩ ∧
    observeDuring 1 1 ⟨some 0, some 0, some 0⟩ = ⟨some 1, some 0, some 0⟩ ∧
    ¬ coherent (observeDuring 1 1 ⟨some 0, some 0, some 0⟩) :=
  ⟨by decide, by decide, by decide⟩

/-- C3, counterexample: with the ingestion loop started at wall-clock `0`
and the first good record (raw device timestamp `1_000_000 µs`) parsed
only at wall-clock `5`, followed by a second good record (raw
`2_000_000 µs`) parsed at wall-clock `7`, the code stamps the samples
`[0, 1]` — the base is the wall clock at loop start (`dept_map.py:31,47`)
— while the claim's rule, whose `wall_t0` is the wall-clock time at the
moment the first record is parsed, demands `[5, 6]`. -/
theorem clock_translation_counterexample :
    (imu_reader_timed 0
        [(5, [some 1000000, some 1, some 2, some 3, some 4, some 5, some 6]),
         (7, [some 2000000, some 1, some 2, some 3, some 4, some 5, some 6])]).log.map
        (fun s => s.timestamp) = [0, 1] ∧
    specTimestamps
        [(5, [some 1000000, some 1, some 2, some 3, some 4, some 5, some 6]),
         (7, [some 2000000, some 1, some 2, some 3, some 4, some 5, some 6])] = [5, 6] ∧
    ([0, 1] : List ℚ) ≠ [5, 6] := by
  refine ⟨?_, ?_, by norm_num⟩
  · norm_num [imu_reader_timed, imu_step, imuInit, parsedOf, List.foldl, dequeAppend,
      IMU_CAP]
  · norm_num [specTimestamps, parsedOf, List.filterMap]

/-- C3 (amended): `wall_t0` is the wall-clock time captured once when the
ingestion loop starts (`dept_map.py:31`), before any record is read — not
at the moment the first record is parsed.  With `device_t0` the raw
timestamp of the first successfully parsed record, every constructed
sample's wall-clock timestamp equals
`wall_t0 + (device_raw_ts - device_t0) / 1_000_000`. -/
theorem clock_translation :
    ∀ (unix_start_time : ℚ) (records : List RawRecord),
      (imu_reader unix_start_time records).log
        = (parsedList records).map (sampleOf unix_start_time (anchorOf records)) :=
  imu_reader_log_eq

/-- C4: a deque append pushes to the back, and when the buffer is at
capacity it evicts exactly the front (oldest) element; inserting samples
with timestamps `1,2,3,4` into an empty capacity-3 buffer leaves
`{2,3,4}` in that order. -/
theorem ring_buffer_fifo :
    (∀ (buf : List InertialSample) (x : InertialSample) (cap : ℕ),
      (buf.length < cap → dequeAppend cap buf x = buf ++ [x]) ∧
      (0 < cap → buf.length = cap → dequeAppend cap buf x = buf.tail ++ [x])) ∧
    List.foldl (dequeAppend 3) [] [mkS 1, mkS 2, mkS 3, mkS 4]
      = [mkS 2, mkS 3, mkS 4] := by
  refine ⟨fun buf x cap =>
    ⟨fun h => dequeAppend_of_lt x h, fun hc h => dequeAppend_of_full x hc h⟩, ?_⟩
  norm_num [dequeAppend, mkS, List.foldl]

/-- C4, witness: a full capacity-3 buffer `[1,2,3]` receiving sample `4`
evicts the front and becomes `tail ++ [4] = [2,3,4]`. -/
theorem ring_buffer_fifo_witness :
    ((0 : ℕ) < 3 ∧ ([mkS 1, mkS 2, mkS 3] : List InertialSample).length = 3) ∧
    dequeAppend 3 [mkS 1, mkS 2, mkS 3] (mkS 4)
      = [mkS 1, mkS 2, mkS 3].tail ++ [mkS 4] :=
  ⟨⟨by norm_num, by norm_num⟩,
    (ring_buffer_fifo.1 [mkS 1, mkS 2, mkS 3] (mkS 4) 3).2 (by norm_num) (by norm_num)⟩

/-- C5: when every raw depth entry equals the same value, the `1e-8`
epsilon makes the normalized value `0` everywhere, so every entry of the
distance map is exactly `MAX_DIST`; in particular a map of all `5.0` with
`MIN_DIST = 1.0`, `MAX_DIST = 5.0` yields all entries `5.0`. -/
theorem degenerate_normalization :
    (∀ (depth_map : List ℚ) (c : ℚ), (∀ x ∈ depth_map, x = c) →
      ∀ d ∈ depth_to_distance MIN_DIST MAX_DIST depth_map, d = MAX_DIST) ∧
    depth_to_distance MIN_DIST MAX_DIST [5, 5, 5] = [5, 5, 5] := by
  constructor
  · intro l c hall d hd
    obtain ⟨x, hx, rfl⟩ := List.mem_map.mp hd
    have hne : l ≠ [] := List.ne_nil_of_mem hx
    have hminl : qmin l = c := hall _ (qmin_mem hne)
    have hmaxl : qmax l = c := hall _ (qmax_mem hne)
    have hxc : x = c := hall _ hx
    rw [distanceOf_eq, hminl, hmaxl, hxc]
    simp only [sub_self, zero_div]
    norm_num [MIN_DIST, MAX_DIST]
  · norm_num [depth_to_distance, distanceOf, qmin, qmax, EPS, MIN_DIST, MAX_DIST,
      List.foldl]

/-- C5, witness: the all-equal hypothesis holds of `[5, 5, 5]` and every
entry of its distance map is `MAX_DIST`. -/
theorem degenerate_normalization_witness :
    (∀ x ∈ ([5, 5, 5] : List ℚ), x = 5) ∧
    ∀ d ∈ depth_to_distance MIN_DIST MAX_DIST [5, 5, 5], d = MAX_DIST :=
  ⟨by norm_num, degenerate_normalization.1 [5, 5, 5] 5 (by norm_num)⟩

/-- C6, counterexample: on the raw map `[0.0, 1.0]` with `MIN_DIST = 1.0`
and `MAX_DIST = 5.0`, `depth_to_distance` does not return `[5.0, 1.0]`:
the epsilon in the denominator keeps the maximal entry's normalized value
strictly below `1`, so its distance is `1 + 4/100000001`, strictly above
`1.0`. -/
theorem normalization_range_counterexample :
    depth_to_distance MIN_DIST MAX_DIST [0, 1] ≠ [5, 1] := by
  norm_num [depth_to_distance, distanceOf, qmin, qmax, EPS, MIN_DIST, MAX_DIST,
    List.foldl]

/-- C6 (amended): on the raw map `[0.0, 1.0]` with `MIN_DIST = 1.0`,
`MAX_DIST = 5.0`, the distances are `[5, 1 + 4/100000001]` — the second
within `4e-8` of `1.0` but strictly above it — and within any frame the
distance is strictly decreasing as the raw value increases. -/
theorem normalization_range :
    depth_to_distance MIN_DIST MAX_DIST [0, 1] = [5, 1 + 4 / 100000001] ∧
    (∀ (depth_map : List ℚ) (x y : ℚ), x ∈ depth_map → y ∈ depth_map → x < y →
      distanceOf MIN_DIST MAX_DIST depth_map y
        < distanceOf MIN_DIST MAX_DIST depth_map x) := by
  constructor
  · norm_num [depth_to_distance, distanceOf, qmin, qmax, EPS, MIN_DIST, MAX_DIST,
      List.foldl]
  · intro l x y hx hy hxy
    exact distanceOf_strict_anti hx hy hxy

/-- C6, witness: on `[0, 1]` the entry for raw value `1` is strictly
closer than the entry for raw value `0`. -/
theorem normalization_range_witness :
    (0 : ℚ) ∈ ([0, 1] : List ℚ) ∧
    distanceOf MIN_DIST MAX_DIST [0, 1] 1 < distanceOf MIN_DIST MAX_DIST [0, 1] 0 :=
  ⟨by norm_num,
    normalization_range.2 [0, 1] 0 1 (by norm_num) (by norm_num) (by norm_num)⟩

/-- C7: a malformed record (wrong field count or a non-numeric field,
i.e. anything `parsedOf` rejects) leaves the ingestion state unchanged —
the loop neither raises (the step is a total function: wrong field count
is skipped, a `float` failure is caught by the `except` clause) nor
appends — and a subsequent well-formed 7-field record is still parsed and
appended with the code's timestamp rule. -/
theorem ingestion_resilience :
    ∀ (unix_start_time : ℚ) (st : ImuState) (malformed : RawRecord),
      parsedOf malformed = none →
      imu_step unix_start_time st malformed = st ∧
      ∀ (t a1 a2 a3 g1 g2 g3 : ℚ),
        (imu_step unix_start_time (imu_step unix_start_time st malformed)
            [some t, some a1, some a2, some a3, some g1, some g2, some g3]).buf
          = dequeAppend IMU_CAP st.buf
              ⟨unix_start_time + (t - st.imu_start_us.getD t) / 1000000,
                a1, a2, a3, g1, g2, g3⟩ := by
  intro u st m hm
  refine ⟨imu_step_of_unparsed hm, ?_⟩
  intro t a1 a2 a3 g1 g2 g3
  rw [imu_step_of_unparsed hm]
  simp [imu_step, parsedOf]

/-- C7, witness: the 5-field record `1 2 3 4 5` is rejected and leaves
the initial state untouched, and the following well-formed record
`1000000 1 2 3 4 5 6` is appended. -/
theorem ingestion_resilience_witness :
    parsedOf [some 1, some 2, some 3, some 4, some 5] = none ∧
    imu_step 0 imuInit [some 1, some 2, some 3, some 4, some 5] = imuInit ∧
    (imu_step 0 (imu_step 0 imuInit [some 1, some 2, some 3, some 4, some 5])
        [some 1000000, some 1, some 2, some 3, some 4, some 5, some 6]).buf
      = dequeAppend IMU_CAP imuInit.buf
          ⟨0 + (1000000 - imuInit.imu_start_us.getD 1000000) / 1000000,
            1, 2, 3, 4, 5, 6⟩ := by
  have hm : parsedOf [some 1, some 2, some 3, some 4, some 5] = none := rfl
  exact ⟨hm, (ingestion_resilience 0 imuInit _ hm).1,
    (ingestion_resilience 0 imuInit _ hm).2 1000000 1 2 3 4 5 6⟩

/-- C8: bounded memory — after any finite run of the ingestion loop the
inertial buffer holds at most `IMU_CAP = 2000` samples, and any sequence
of bundle appends into the capacity-`SYNC_CAP = 100` history stays within
capacity. -/
theorem bounded_memory :
    ∀ (unix_start_time : ℚ) (records : List RawRecord)
      (bundles : List (ℚ × List InertialSample)),
      (imu_reader unix_start_time records).buf.length ≤ IMU_CAP ∧
      (bundles.foldl (dequeAppend SYNC_CAP) []).length ≤ SYNC_CAP := by
  intro u records bundles
  constructor
  · have hinv : ∀ (rs : List RawRecord) (st : ImuState), st.buf.length ≤ IMU_CAP →
        (rs.foldl (imu_step u) st).buf.length ≤ IMU_CAP := by
      intro rs
      induction rs with
      | nil => intro st h; simpa using h
      | cons r rs ih => intro st h; exact ih _ (imu_step_buf_length_le r h)
    exact hinv records imuInit (by simp [imuInit])
  · exact foldl_dequeAppend_length_le bundles [] (by simp)

/-- C9: the `/imu_buffer` handler returns
`{timestamp: None, imu: []}` when no synchronized bundle exists yet, and
otherwise returns the most recently appended bundle — its frame timestamp
together with its windowed samples. -/
theorem latest_bundle_query :
    imu_buffer_stream [] = ⟨none, []⟩ ∧
    ∀ (hist : List (ℚ × List InertialSample)) (ts : ℚ)
      (samples : List InertialSample),
      imu_buffer_stream (hist ++ [(ts, samples)]) = ⟨some ts, samples⟩ := by
  constructor
  · rfl
  · intro hist ts samples
    simp [imu_buffer_stream, List.getLast?_concat]

/-- C10: on every nonempty raw depth map, every entry of the distance map
lies in the half-open interval `(MIN_DIST, MAX_DIST]`; the entry holding
the frame's minimum raw value maps to exactly `MAX_DIST`, and the entry
holding the maximum raw value stays strictly above `MIN_DIST` (the
epsilon keeps its normalized value strictly below `1`). -/
theorem distance_bounds :
    ∀ (depth_map : List ℚ), depth_map ≠ [] →
      (∀ d ∈ depth_to_distance MIN_DIST MAX_DIST depth_map,
        MIN_DIST < d ∧ d ≤ MAX_DIST) ∧
      distanceOf MIN_DIST MAX_DIST depth_map (qmin depth_map) = MAX_DIST ∧
      MIN_DIST < distanceOf MIN_DIST MAX_DIST depth_map (qmax depth_map) := by
  intro l hne
  refine ⟨?_, distanceOf_qmin_eq l, distanceOf_lower (qmax_mem hne)⟩
  intro d hd
  obtain ⟨x, hx, rfl⟩ := List.mem_map.mp hd
  exact ⟨distanceOf_lower hx, distanceOf_upper hx⟩

/-- C10, witness: the bounds instantiated on the nonempty map `[0, 1]`. -/
theorem distance_bounds_witness :
    (∀ d ∈ depth_to_distance MIN_DIST MAX_DIST [0, 1],
      MIN_DIST < d ∧ d ≤ MAX_DIST) ∧
    distanceOf MIN_DIST MAX_DIST [0, 1] (qmin [0, 1]) = MAX_DIST ∧
    MIN_DIST < distanceOf MIN_DIST MAX_DIST [0, 1] (qmax [0, 1]) :=
  distance_bounds [0, 1] (List.cons_ne_nil 0 [1])
